import Mathlib

/-!
Verification of the sugar-cane-efficiency evolutionary optimizer.

Shallow embedding of `src/main.rs`: a genetic algorithm evolving a 2D grid
of tiles (`Farm`) under a repair invariant (`kill_sugar`), a fitness
evaluator (resource density plus two symmetry scores computed in `f64`),
a crossover operator (`breed`), a mutation operator (`mutate`) and a
generational population loop.

Modelling conventions:
* Rust `Vec<Vec<Tile>>` becomes `List (List Tile)`; `usize` becomes `ℕ`.
* Rust indexing `v[i]` (which panics when out of range) is totalized with
  `List.getD`; the separate bounds predicates (`getInBounds`, `getSafe`,
  …) record exactly when the source performs only in-range accesses, and
  theorems are stated on that domain.
* The thread-local random generator becomes an explicit stream state
  (`Rng`) threaded through the operations that consume randomness;
  `gen_range(0..n)` is modelled as a stream draw reduced modulo `n`, and
  the `f32` draw of `mutate` as a rational stream draw.
* Rust `f64` arithmetic is modelled by `fl`, rounding a rational to 53
  significant bits (round to nearest, ties to even, unbounded exponent);
  this matches IEEE-754 binary64 on the magnitudes the program produces.
* A `panic!`/`unwrap` failure is modelled by `Option` (`none`) where a
  claim depends on it, and noted otherwise.
-/

/-- The tile enumeration of the source (`Sugar` = Resource, `Water` =
Moisture, `Air` = Empty). -/
inductive Tile where
  | Sugar : Tile
  | Water : Tile
  | Air : Tile
deriving DecidableEq, Repr

/-- The genome: a grid of tiles with its dimensions, as in the source
`struct Farm { tiles: Vec<Vec<Tile>>, size_x: usize, size_y: usize }`. -/
structure Farm where
  tiles : List (List Tile)
  size_x : ℕ
  size_y : ℕ
deriving DecidableEq, Repr

namespace Farm

/-- Raw storage read `self.tiles[y][x]`, totalized with `Air` as default
(the source panics when the index is out of range; `getInBounds` below
records when that cannot happen). -/
def cellAt (g : Farm) (x y : ℕ) : Tile :=
  (g.tiles.getD y []).getD x Tile.Air

/-- Source `fn get_tile(&self, x, y) -> Option<Tile>`: bounds check against the
size fields, then read `self.tiles[y][x]`. -/
def get_tile (g : Farm) (x y : ℕ) : Option Tile :=
  if x ≥ g.size_x ∨ y ≥ g.size_y then none
  else some (g.cellAt x y)

/-- The storage access performed by `get_tile` after its bounds check is
actually in range (the source reads `self.tiles[y][x]`). -/
def getInBounds (g : Farm) (x y : ℕ) : Prop :=
  y < g.tiles.length ∧ x < (g.tiles.getD y []).length

instance (g : Farm) (x y : ℕ) : Decidable (g.getInBounds x y) := by
  unfold getInBounds; infer_instance

/-- Source `fn get_neighbours(&self, x, y) -> Vec<Tile>`: the four orthogonal
neighbours in the fixed order top, right, bottom, left; an out-of-range
neighbour address (including the `y == 0` / `x == 0` underflow guards of
the source) evaluates as `Air`. -/
def get_neighbours (g : Farm) (x y : ℕ) : List Tile :=
  let top := if y = 0 then Tile.Air else (g.get_tile x (y - 1)).getD Tile.Air
  let right := (g.get_tile (x + 1) y).getD Tile.Air
  let bottom := (g.get_tile x (y + 1)).getD Tile.Air
  let left := if x = 0 then Tile.Air else (g.get_tile (x - 1) y).getD Tile.Air
  [top, right, bottom, left]

/-- Source `fn has_water_in_neighbourhood(&self, x, y) -> bool`. -/
def has_water_in_neighbourhood (g : Farm) (x y : ℕ) : Bool :=
  (g.get_neighbours x y).any (fun t =>
    match t with
    | Tile.Water => true
    | _ => false)

end Farm

/-- The doubly nested `for x in 0..sx { for y in 0..sy { rows push f x y } }`
loop pattern used by `populate_with_air`, `kill_sugar`, `breed` and
`mutate` to build a fresh grid: row `x` of the result holds
`f x 0, …, f x (sy-1)`. -/
def mkGrid (sx sy : ℕ) (f : ℕ → ℕ → Tile) : List (List Tile) :=
  (List.range sx).map (fun x => (List.range sy).map (fun y => f x y))

namespace Farm

/-- Source `fn populate_with_air(&mut self)`: replace the storage by
`size_x` rows of `size_y` `Air` tiles each. -/
def populate_with_air (g : Farm) : Farm :=
  { g with tiles := mkGrid g.size_x g.size_y (fun _ _ => Tile.Air) }

/-- Body of the `kill_sugar` inner loop at loop indices `(x, y)`:
a `Sugar` tile without `Water` in its neighbourhood becomes `Air`,
every other tile is kept. The `none` branch stands for the source's
`tile.unwrap()` panic; it is unreachable inside the loop because there
`x < size_x` and `y < size_y`, so `get_tile` is `some`. -/
def repairCell (g : Farm) (x y : ℕ) : Tile :=
  match g.get_tile x y with
  | some Tile.Sugar =>
      if g.has_water_in_neighbourhood x y then Tile.Sugar else Tile.Air
  | some t => t
  | none => Tile.Air

/-- Source `fn kill_sugar(&mut self)`: rebuild the grid with the doubly nested
loop, pushing `repairCell` at each loop index. -/
def kill_sugar (g : Farm) : Farm :=
  { g with tiles := mkGrid g.size_x g.size_y (fun x y => g.repairCell x y) }

/-- Source `fn new_rect(size_x, size_y) -> Farm`. -/
def new_rect (sx sy : ℕ) : Farm :=
  (Farm.populate_with_air { tiles := [], size_x := sx, size_y := sy }).kill_sugar

/-- Source `fn new_square(size) -> Farm`. -/
def new_square (s : ℕ) : Farm := new_rect s s

/-- The child grid built by `fn breed(a, b)` before repair: iterate over
`a`'s dimensions, take `a`'s tile unless it is `Air`, in which case take
`b`'s tile; the size fields combine `a.size_x` with `b.size_y` exactly as
in the source. Both `get_tile(…).unwrap()` calls of the source are
totalized with `Air`; `breedSafe` below records when they cannot panic. -/
def breedRaw (a b : Farm) : Farm :=
  { tiles :=
      mkGrid a.size_x a.size_y (fun x y =>
        let a_tile := (a.get_tile x y).getD Tile.Air
        let b_tile := (b.get_tile x y).getD Tile.Air
        match a_tile with
        | Tile.Air => b_tile
        | t => t),
    size_x := a.size_x,
    size_y := b.size_y }

/-- Source `fn breed(a, b) -> Farm`: build the child, then `kill_sugar` it.
The `rand::thread_rng()` handle created by the source's `breed` is never
used, so the model takes no random state: crossover is a pure function
of its parents. -/
def breed (a b : Farm) : Farm := (breedRaw a b).kill_sugar

end Farm

/-- Explicit state of the shared random source (`rand::thread_rng()`):
a stream of `f32` draws in `[0,1)` (modelled as rationals, consumed by
`rng.gen::<f32>()`) and a stream of integer draws (consumed by
`rng.gen_range(0..n)`), each with its position. -/
structure Rng where
  floats : ℕ → ℚ
  nats : ℕ → ℕ
  fpos : ℕ
  npos : ℕ

/-- One `rng.gen::<f32>()` draw. -/
def Rng.genFloat (r : Rng) : ℚ × Rng :=
  (r.floats r.fpos, { r with fpos := r.fpos + 1 })

/-- One `rng.gen_range(0..n)` draw: the next stream value reduced into
`[0, n)` (for `n = 0` the source panics; callers handle that case). -/
def Rng.genRange (r : Rng) (n : ℕ) : ℕ × Rng :=
  (r.nats r.npos % n, { r with npos := r.npos + 1 })

namespace Farm

/-- Body of the `mutate` loop for one cell holding `t`: draw a float,
and if it is below the mutation factor replace the tile by the tile of
index `gen_range(0..3)`; the `none` result is the source's
`panic!("invalid tile index")` arm for an index outside `{0, 1, 2}`. -/
def mutateTile (factor : ℚ) (t : Tile) (r : Rng) : Option (Tile × Rng) :=
  let (num, r1) := r.genFloat
  if num < factor then
    let (n, r2) := r1.genRange 3
    match n with
    | 0 => some (Tile.Sugar, r2)
    | 1 => some (Tile.Water, r2)
    | 2 => some (Tile.Air, r2)
    | _ => none
  else
    some (t, r1)

/-- Inner `for y in 0..size_y` loop of `mutate` over one row. -/
def mutateRow (factor : ℚ) : List Tile → Rng → Option (List Tile × Rng)
  | [], r => some ([], r)
  | t :: ts, r => do
      let (t', r1) ← mutateTile factor t r
      let (ts', r2) ← mutateRow factor ts r1
      some (t' :: ts', r2)

/-- Outer `for x in 0..size_x` loop of `mutate` over the rows. -/
def mutateGrid (factor : ℚ) : List (List Tile) → Rng → Option (List (List Tile) × Rng)
  | [], r => some ([], r)
  | row :: rows, r => do
      let (row', r1) ← mutateRow factor row r
      let (rows', r2) ← mutateGrid factor rows r1
      some (row' :: rows', r2)

/-- Source `fn mutate(&mut self, mutation_factor: f32)`: for each loop index
`(x, y)` (`x` outer) read the raw storage `self.tiles[x][y]` and rebuild
the grid from the per-cell draws; `none` is the unreachable
`panic!("invalid tile index")`. -/
def mutate (g : Farm) (mutation_factor : ℚ) (r : Rng) : Option (Farm × Rng) :=
  (mutateGrid mutation_factor
      (mkGrid g.size_x g.size_y (fun x y => (g.tiles.getD x []).getD y Tile.Air)) r).map
    (fun p => ({ g with tiles := p.1 }, p.2))

end Farm

/-! ## The `f64` model

`get_vertical_symmetry_score` and `get_horizontal_symmetry_score` compute
`(matched as f64 / total as f64 * 50.0) as usize`. The function `fl`
rounds a nonnegative rational to 53 significant bits (round to nearest,
ties to even), which is exactly IEEE-754 binary64 rounding on the range
of values this program produces (no overflow, no subnormals). -/

/-- Number of binary digits of `n`, by fuel recursion (`bitsAux fuel n`
is `bits n` whenever `n ≤ fuel`). -/
def bitsAux : ℕ → ℕ → ℕ
  | 0, _ => 0
  | fuel + 1, n => if n = 0 then 0 else bitsAux fuel (n / 2) + 1

/-- Number of binary digits of `n`: `bits 0 = 0`, and
`2 ^ (bits n - 1) ≤ n < 2 ^ bits n` for `n ≥ 1`. -/
def bits (n : ℕ) : ℕ := bitsAux n n

/-- Round a rational to the nearest integer, ties to even. -/
def roundHE (x : ℚ) : ℤ :=
  if x - ⌊x⌋ < 1 / 2 then ⌊x⌋
  else if 1 / 2 < x - ⌊x⌋ then ⌊x⌋ + 1
  else if ⌊x⌋ % 2 = 0 then ⌊x⌋ else ⌊x⌋ + 1

/-- The binade exponent of a positive rational: the unique `e` with
`2 ^ e ≤ q < 2 ^ (e + 1)`. -/
def flExp (q : ℚ) : ℤ :=
  if 1 ≤ q then (bits ⌊q⌋.toNat : ℤ) - 1
  else if (2 : ℚ) ^ (-((bits ⌊q⁻¹⌋.toNat : ℤ) - 1)) ≤ q then
    -((bits ⌊q⁻¹⌋.toNat : ℤ) - 1)
  else -((bits ⌊q⁻¹⌋.toNat : ℤ) - 1) - 1

/-- Round a rational to 53 significant binary digits, round to nearest,
ties to even (IEEE-754 binary64 with unbounded exponent; nonpositive
inputs, which the program never feeds to it, collapse to `0`). -/
def fl (q : ℚ) : ℚ :=
  if q ≤ 0 then 0
  else (roundHE (q * 2 ^ (52 - flExp q)) : ℚ) * 2 ^ (flExp q - 52)

/-- The `usize as f64` conversion. -/
def f64ofNat (n : ℕ) : ℚ := fl n

/-- Division in `f64`: round the exact quotient. -/
def f64div (a b : ℚ) : ℚ := fl (a / b)

/-- Multiplication in `f64`: round the exact product. -/
def f64mul (a b : ℚ) : ℚ := fl (a * b)

/-- The `f64 as usize` cast for the nonnegative values produced here:
truncation toward zero. -/
def f64toNat (q : ℚ) : ℕ := ⌊q⌋.toNat

namespace Farm

/-- Source `fn get_sugar_score(&self) -> usize`: fold over the storage adding
100 for every `Sugar` tile. -/
def get_sugar_score (g : Farm) : ℕ :=
  g.tiles.foldl
    (fun s row =>
      row.foldl
        (fun s t =>
          match t with
          | Tile.Sugar => s + 100
          | _ => s)
        s)
    0

/-- The matched-tile count of the vertical-symmetry loop: for each
storage row, the number of positions `x` whose tile equals the tile at
position `size_x - 1 - x` of the same row. -/
def verticalMatches (g : Farm) : ℕ :=
  (g.tiles.map (fun row =>
      ((List.range row.length).filter (fun x =>
          decide (row.getD x Tile.Air = row.getD (g.size_x - 1 - x) Tile.Air))).length)).sum

/-- Source `fn get_vertical_symmetry_score(&self) -> usize`: the matched count
divided by `size_x * size_y` in `f64`, times `50.0`, cast to `usize`. -/
def get_vertical_symmetry_score (g : Farm) : ℕ :=
  let matched := g.verticalMatches
  let total := g.size_x * g.size_y
  let symmetry_factor := f64div (f64ofNat matched) (f64ofNat total)
  f64toNat (f64mul symmetry_factor 50)

/-- The matched-tile count of the horizontal-symmetry loop: for row `y`
and position `x` in it, the tile is compared with position `x` of row
`size_y - 1 - y`. -/
def horizontalMatches (g : Farm) : ℕ :=
  (g.tiles.enum.map (fun p =>
      ((List.range p.2.length).filter (fun x =>
          decide (p.2.getD x Tile.Air =
            (g.tiles.getD (g.size_y - 1 - p.1) []).getD x Tile.Air))).length)).sum

/-- Source `fn get_horizontal_symmetry_score(&self) -> usize`. -/
def get_horizontal_symmetry_score (g : Farm) : ℕ :=
  let matched := g.horizontalMatches
  let total := g.size_x * g.size_y
  let symmetry_factor := f64div (f64ofNat matched) (f64ofNat total)
  f64toNat (f64mul symmetry_factor 50)

/-- Source `fn score(&self) -> usize`: the sum of the three partial scores. -/
def score (g : Farm) : ℕ :=
  g.get_sugar_score + g.get_vertical_symmetry_score + g.get_horizontal_symmetry_score

/-- The selection step of one generation of `main`: stable-sort the
population ascending by score (Rust `Vec::sort_by` is a stable sort),
then `farms.remove(0)` while more than `popluation / 3` remain — i.e.
drop the lowest-scoring prefix, keeping the top third as breeding pool. -/
def survivorsOf (population : ℕ) (farms : List Farm) : List Farm :=
  let sorted := farms.mergeSort (fun a b => a.score ≤ b.score)
  sorted.drop (sorted.length - population / 3)

/-- The `while farms.len() < popluation` repopulation loop of `main`:
draw two parent indices in `[0, popluation / 3)`, breed them, mutate the
child, `kill_sugar` it and push it. `none` models the panics reachable
here (an empty `gen_range` range when `popluation / 3 = 0`, an
out-of-range parent index, or the defensive mutation panic). The fuel
argument bounds the iteration count; each iteration grows the population
by one, so `population` itself is always enough fuel. -/
def repopulateAux (population : ℕ) (factor : ℚ) :
    ℕ → List Farm → Rng → Option (List Farm × Rng)
  | 0, farms, r => some (farms, r)
  | fuel + 1, farms, r =>
      if farms.length < population then
        if population / 3 = 0 then none
        else
          let (i, r1) := r.genRange (population / 3)
          let (j, r2) := r1.genRange (population / 3)
          match farms.get? i, farms.get? j with
          | some pa, some pb =>
              match (Farm.breed pa pb).mutate factor r2 with
              | some (child2, r3) =>
                  repopulateAux population factor fuel
                    (farms ++ [child2.kill_sugar]) r3
              | none => none
          | _, _ => none
      else some (farms, r)

/-- One full generation of the `main` loop: evaluate-and-sort, select
the breeding pool, then repopulate back to `population` children slots. -/
def generationStep (population : ℕ) (factor : ℚ) (farms : List Farm) (r : Rng) :
    Option (List Farm × Rng) :=
  repopulateAux population factor population (survivorsOf population farms) r

/-- Well-formedness of a farm value: the storage really is a
`size_x`-row grid of `size_y`-long rows, as every constructor of the
source produces. -/
def WF (g : Farm) : Prop :=
  g.tiles.length = g.size_x ∧ ∀ row ∈ g.tiles, row.length = g.size_y

instance (g : Farm) : Decidable g.WF := by
  unfold WF; infer_instance

/-- The resource-support invariant of the spec: every cell holding
`Sugar` (Resource) has a `Water` (Moisture) tile among its four
orthogonal neighbours. -/
def Invariant (g : Farm) : Prop :=
  ∀ x y, g.get_tile x y = some Tile.Sugar → g.has_water_in_neighbourhood x y = true

/-- Tile at an address as `get_neighbours` evaluates it: `get_tile`
with `Air` for an out-of-range address. -/
def valAt (g : Farm) (x y : ℕ) : Tile :=
  (g.get_tile x y).getD Tile.Air

/-- A call `get_tile(x, y)` executes without panicking: either the bounds
check fails (returning `None` safely) or the storage access is in range. -/
def getSafe (g : Farm) (x y : ℕ) : Prop :=
  x < g.size_x → y < g.size_y → g.getInBounds x y

instance (g : Farm) (x y : ℕ) : Decidable (g.getSafe x y) := by
  unfold getSafe; infer_instance

/-- All four `get_tile` calls of `get_neighbours(x, y)` execute without
panicking (the `y == 0` / `x == 0` branches perform no call at all). -/
def neighboursSafe (g : Farm) (x y : ℕ) : Prop :=
  (y ≠ 0 → g.getSafe x (y - 1)) ∧ g.getSafe (x + 1) y ∧
    g.getSafe x (y + 1) ∧ (x ≠ 0 → g.getSafe (x - 1) y)

instance (g : Farm) (x y : ℕ) : Decidable (g.neighboursSafe x y) := by
  unfold neighboursSafe; infer_instance

/-- A `kill_sugar` call on `g` executes without panicking: at every loop
index the `get_tile` access is in range, its result is `Some` (so the
`unwrap` succeeds) and the neighbourhood reads are safe. -/
def killSugarSafe (g : Farm) : Prop :=
  ∀ x < g.size_x, ∀ y < g.size_y,
    g.getSafe x y ∧ (g.get_tile x y).isSome = true ∧ g.neighboursSafe x y

instance (g : Farm) : Decidable g.killSugarSafe := by
  unfold killSugarSafe; infer_instance

/-- A `breed(a, b)` call executes without panicking: at every loop index
(ranging over `a`'s dimensions) both `get_tile(…).unwrap()` calls
succeed with in-range storage accesses, and the final `kill_sugar` on
the child is safe. -/
def breedSafe (a b : Farm) : Prop :=
  (∀ x < a.size_x, ∀ y < a.size_y,
      a.getSafe x y ∧ (a.get_tile x y).isSome = true ∧
        b.getSafe x y ∧ (b.get_tile x y).isSome = true) ∧
    (breedRaw a b).killSugarSafe

instance (a b : Farm) : Decidable (Farm.breedSafe a b) := by
  unfold breedSafe; infer_instance

/-- Modelled from the spec (§4.1): the tile at an integer neighbour
address, any out-of-bounds address (negative or beyond the grid)
evaluating as Empty. This is the spec-side description that
`get_neighbours` is compared against. -/
def neighbourAt (g : Farm) (p : ℤ × ℤ) : Tile :=
  if 0 ≤ p.1 ∧ 0 ≤ p.2 then (g.get_tile p.1.toNat p.2.toNat).getD Tile.Air
  else Tile.Air

/-- Modelled from the spec (§4.1): the four neighbours of `(x, y)` in
the order up, right, down, left, out-of-bounds addresses as Empty. -/
def neighboursSpec (g : Farm) (x y : ℕ) : List Tile :=
  [g.neighbourAt (x, (y : ℤ) - 1), g.neighbourAt ((x : ℤ) + 1, y),
    g.neighbourAt (x, (y : ℤ) + 1), g.neighbourAt ((x : ℤ) - 1, y)]

/-- Number of `Sugar` tiles in the storage. -/
def sugarCount (g : Farm) : ℕ :=
  (g.tiles.map (fun row => (row.filter (fun t => decide (t = Tile.Sugar))).length)).sum

end Farm

/-! ## Concrete data used by counterexamples and witnesses -/

/-- A 1x1 farm holding `Air`; its score is 100 (0 + 50 + 50). -/
def airFarm : Farm := ⟨[[Tile.Air]], 1, 1⟩

/-- A 1x1 farm holding `Sugar`; its score is 200 (100 + 50 + 50). -/
def sugarFarm : Farm := ⟨[[Tile.Sugar]], 1, 1⟩

/-- A 1x1 farm holding `Water`; its score is 100. -/
def waterFarm : Farm := ⟨[[Tile.Water]], 1, 1⟩

/-- A deterministic random stream: every float draw is 1 (never below a
mutation factor of 0), every integer draw is 0. -/
def rngConst : Rng := ⟨fun _ => 1, fun _ => 0, 0, 0⟩

/-- A 2x2 farm, asymmetric after repair: storage rows
`[[Air, Water], [Air, Sugar]]`. -/
def farmC2 : Farm := ⟨[[Tile.Air, Tile.Water], [Tile.Air, Tile.Sugar]], 2, 2⟩

/-- A 2x2 farm whose cell `(1, 0)` (via `get_tile`) holds `Sugar` with a
`Water` neighbour on its left: storage rows `[[Water, Sugar], [Air, Air]]`. -/
def farmC3 : Farm := ⟨[[Tile.Water, Tile.Sugar], [Tile.Air, Tile.Air]], 2, 2⟩

/-- A 2x2 farm fixed by cell-wise demotion but not symmetric, storage
rows `[[Air, Air], [Water, Sugar]]`. -/
def farmC4 : Farm := ⟨[[Tile.Air, Tile.Air], [Tile.Water, Tile.Sugar]], 2, 2⟩

/-- A 2x2 all-`Air` parent for the crossover shape counterexample. -/
def farmC6a : Farm := ⟨[[Tile.Air, Tile.Air], [Tile.Air, Tile.Air]], 2, 2⟩

/-- A well-formed 3x2 parent (width 3, height 2): storage rows
`[[Water, Water], [Water, Water], [Sugar, Sugar]]`; its third row is the
part of the grid that crossover with a 2x2 partner silently ignores. -/
def farmC6b : Farm :=
  ⟨[[Tile.Water, Tile.Water], [Tile.Water, Tile.Water], [Tile.Sugar, Tile.Sugar]], 3, 2⟩

/-- A 10-tile row of `Air`: 10 of its positions match their mirror. -/
def rowAllAir : List Tile :=
  [Tile.Air, Tile.Air, Tile.Air, Tile.Air, Tile.Air,
    Tile.Air, Tile.Air, Tile.Air, Tile.Air, Tile.Air]

/-- A 10-tile row with exactly one mismatched mirror pair
(positions 0 and 9): 8 of its positions match their mirror. -/
def rowOneOff : List Tile :=
  [Tile.Water, Tile.Air, Tile.Air, Tile.Air, Tile.Air,
    Tile.Air, Tile.Air, Tile.Air, Tile.Air, Tile.Air]

/-- A 10-tile row whose left half is `Water` and right half `Air`:
none of its positions matches its mirror. -/
def rowSplit : List Tile :=
  [Tile.Water, Tile.Water, Tile.Water, Tile.Water, Tile.Water,
    Tile.Air, Tile.Air, Tile.Air, Tile.Air, Tile.Air]

/-- A well-formed 10x10 farm with exactly 58 vertical mirror matches out
of 100 cells: `50 * 58 / 100 = 29`, but the `f64` evaluation of
`58 / 100 * 50.0` rounds to just below 29 and the `as usize` cast
truncates it to 28. -/
def farmC8 : Farm :=
  ⟨[rowAllAir, rowAllAir, rowAllAir, rowAllAir, rowAllAir,
      rowOneOff, rowSplit, rowSplit, rowSplit, rowSplit], 10, 10⟩

/-- A 2x1 farm shape (width 2, height 1) populated by the constructor's
fill loop: storage has `size_x = 2` rows of `size_y = 1` tiles, while
`get_tile` reads `tiles[y][x]`. -/
def rectFarm21 : Farm :=
  Farm.populate_with_air { tiles := [], size_x := 2, size_y := 1 }


/-! ## Structural lemmas -/

theorem mkGrid_getD (sx sy : ℕ) (f : ℕ → ℕ → Tile) (i j : ℕ) :
    ((mkGrid sx sy f).getD i []).getD j Tile.Air =
      if i < sx ∧ j < sy then f i j else Tile.Air := by
  unfold mkGrid
  by_cases hi : i < sx
  · by_cases hj : j < sy
    · simp [List.getD_eq_getElem?_getD, List.getElem?_map, List.getElem?_range, hi, hj]
    · have hnone : (List.range sy)[j]? = none :=
        List.getElem?_eq_none (by simpa using Nat.le_of_not_lt hj)
      simp [List.getD_eq_getElem?_getD, List.getElem?_map, List.getElem?_range, hi, hj, hnone]
  · have hnone : (List.range sx)[i]? = none :=
      List.getElem?_eq_none (by simpa using Nat.le_of_not_lt hi)
    simp [List.getD_eq_getElem?_getD, List.getElem?_map, hi, hnone]

theorem mkGrid_length (sx sy : ℕ) (f : ℕ → ℕ → Tile) :
    (mkGrid sx sy f).length = sx := by
  simp [mkGrid]

theorem mkGrid_mem_length (sx sy : ℕ) (f : ℕ → ℕ → Tile) (row : List Tile)
    (h : row ∈ mkGrid sx sy f) : row.length = sy := by
  unfold mkGrid at h
  obtain ⟨x, -, rfl⟩ := List.mem_map.mp h
  simp

theorem mkGrid_congr (sx sy : ℕ) (f f' : ℕ → ℕ → Tile)
    (h : ∀ x < sx, ∀ y < sy, f x y = f' x y) :
    mkGrid sx sy f = mkGrid sx sy f' := by
  unfold mkGrid
  refine List.map_congr_left (fun x hx => ?_)
  refine List.map_congr_left (fun y hy => ?_)
  exact h x (List.mem_range.mp hx) y (List.mem_range.mp hy)

namespace Farm

theorem get_tile_eq (g : Farm) (x y : ℕ) :
    g.get_tile x y =
      if x < g.size_x ∧ y < g.size_y then some (g.cellAt x y) else none := by
  unfold get_tile
  by_cases hx : x < g.size_x <;> by_cases hy : y < g.size_y <;>
    simp [hx, hy]

theorem get_tile_isSome (g : Farm) (x y : ℕ) :
    (g.get_tile x y).isSome = true ↔ x < g.size_x ∧ y < g.size_y := by
  rw [get_tile_eq]
  split <;> simp_all

theorem valAt_eq (g : Farm) (x y : ℕ) :
    g.valAt x y =
      if x < g.size_x ∧ y < g.size_y then g.cellAt x y else Tile.Air := by
  unfold valAt
  rw [get_tile_eq]
  split <;> simp

theorem get_neighbours_eq (g : Farm) (x y : ℕ) :
    g.get_neighbours x y =
      [if y = 0 then Tile.Air else g.valAt x (y - 1),
        g.valAt (x + 1) y,
        g.valAt x (y + 1),
        if x = 0 then Tile.Air else g.valAt (x - 1) y] := rfl

theorem hasWater_iff (g : Farm) (x y : ℕ) :
    g.has_water_in_neighbourhood x y = true ↔
      Tile.Water ∈ g.get_neighbours x y := by
  unfold has_water_in_neighbourhood
  rw [List.any_eq_true]
  constructor
  · rintro ⟨t, ht, hm⟩
    cases t <;> simp_all
  · intro h
    exact ⟨Tile.Water, h, rfl⟩

theorem hasWater_cases (g : Farm) (x y : ℕ) :
    g.has_water_in_neighbourhood x y = true ↔
      ((y ≠ 0 ∧ g.valAt x (y - 1) = Tile.Water) ∨
        g.valAt (x + 1) y = Tile.Water ∨
        g.valAt x (y + 1) = Tile.Water ∨
        (x ≠ 0 ∧ g.valAt (x - 1) y = Tile.Water)) := by
  rw [hasWater_iff, get_neighbours_eq]
  by_cases hy : y = 0 <;> by_cases hx : x = 0 <;>
    simp [hy, hx, List.mem_cons, eq_comm]

theorem kill_sugar_size_x (g : Farm) : g.kill_sugar.size_x = g.size_x := rfl

theorem kill_sugar_size_y (g : Farm) : g.kill_sugar.size_y = g.size_y := rfl

theorem kill_sugar_cellAt (g : Farm) (x y : ℕ) :
    g.kill_sugar.cellAt x y =
      if y < g.size_x ∧ x < g.size_y then g.repairCell y x else Tile.Air := by
  unfold kill_sugar cellAt
  exact mkGrid_getD g.size_x g.size_y _ y x

theorem repairCell_sugar_iff (g : Farm) (x y : ℕ) :
    g.repairCell x y = Tile.Sugar ↔
      g.get_tile x y = some Tile.Sugar ∧
        g.has_water_in_neighbourhood x y = true := by
  unfold repairCell
  rcases h : g.get_tile x y with - | t
  · simp
  · cases t with
    | Sugar => simp only [h]; split <;> simp_all
    | Water => simp_all
    | Air => simp_all

theorem repairCell_water_iff (g : Farm) (x y : ℕ) :
    g.repairCell x y = Tile.Water ↔ g.get_tile x y = some Tile.Water := by
  unfold repairCell
  rcases h : g.get_tile x y with - | t
  · simp
  · cases t with
    | Sugar => simp only [h]; split <;> simp_all
    | Water => simp_all
    | Air => simp_all

end Farm

namespace Farm

theorem repairCell_air_iff (g : Farm) (x y : ℕ) :
    g.repairCell x y = Tile.Air ↔
      (g.get_tile x y = some Tile.Air ∨
        (g.get_tile x y = some Tile.Sugar ∧
          g.has_water_in_neighbourhood x y = false) ∨
        g.get_tile x y = none) := by
  unfold repairCell
  rcases h : g.get_tile x y with - | t
  · simp
  · cases t with
    | Sugar => simp only [h]; split <;> simp_all
    | Water => simp_all
    | Air => simp_all

theorem get_tile_kill_sugar (g : Farm) (h : g.size_x = g.size_y) (x y : ℕ) :
    g.kill_sugar.get_tile x y =
      if x < g.size_x ∧ y < g.size_y then some (g.repairCell y x) else none := by
  rw [get_tile_eq, kill_sugar_size_x, kill_sugar_size_y, kill_sugar_cellAt]
  split
  · next hc => rw [if_pos ⟨by omega, by omega⟩]
  · rfl

theorem valAt_kill_sugar (g : Farm) (h : g.size_x = g.size_y) (x y : ℕ) :
    g.kill_sugar.valAt x y =
      if x < g.size_x ∧ y < g.size_y then g.repairCell y x else Tile.Air := by
  unfold valAt
  rw [get_tile_kill_sugar g h]
  split <;> simp

theorem valAt_water_kill_sugar (g : Farm) (h : g.size_x = g.size_y) (p q : ℕ) :
    g.kill_sugar.valAt p q = Tile.Water ↔ g.valAt q p = Tile.Water := by
  rw [valAt_kill_sugar g h, valAt_eq]
  by_cases hp : p < g.size_x ∧ q < g.size_y
  · rw [if_pos hp, repairCell_water_iff, get_tile_eq,
      if_pos (⟨by omega, by omega⟩ : q < g.size_x ∧ p < g.size_y),
      if_pos (⟨by omega, by omega⟩ : q < g.size_x ∧ p < g.size_y)]
    simp
  · rw [if_neg hp, if_neg (by omega : ¬(q < g.size_x ∧ p < g.size_y))]

theorem hasWater_transpose (g1 g2 : Farm) (x y : ℕ)
    (h : ∀ p q, (g1.valAt p q = Tile.Water ↔ g2.valAt q p = Tile.Water)) :
    g1.has_water_in_neighbourhood x y = g2.has_water_in_neighbourhood y x := by
  have key : g1.has_water_in_neighbourhood x y = true ↔
      g2.has_water_in_neighbourhood y x = true := by
    rw [hasWater_cases, hasWater_cases]
    constructor
    · rintro (⟨hy0, hw⟩ | hw | hw | ⟨hx0, hw⟩)
      · exact Or.inr (Or.inr (Or.inr ⟨hy0, (h _ _).mp hw⟩))
      · exact Or.inr (Or.inr (Or.inl ((h _ _).mp hw)))
      · exact Or.inr (Or.inl ((h _ _).mp hw))
      · exact Or.inl ⟨hx0, (h _ _).mp hw⟩
    · rintro (⟨hx0, hw⟩ | hw | hw | ⟨hy0, hw⟩)
      · exact Or.inr (Or.inr (Or.inr ⟨hx0, (h _ _).mpr hw⟩))
      · exact Or.inr (Or.inr (Or.inl ((h _ _).mpr hw)))
      · exact Or.inr (Or.inl ((h _ _).mpr hw))
      · exact Or.inl ⟨hy0, (h _ _).mpr hw⟩
  cases hb1 : g1.has_water_in_neighbourhood x y <;>
    cases hb2 : g2.has_water_in_neighbourhood y x <;> simp_all

theorem kill_sugar_invariant (g : Farm) (h : g.size_x = g.size_y) :
    g.kill_sugar.Invariant := by
  intro x y hS
  rw [get_tile_kill_sugar g h] at hS
  by_cases hb : x < g.size_x ∧ y < g.size_y
  · rw [if_pos hb] at hS
    have hrc : g.repairCell y x = Tile.Sugar := by
      simpa using hS
    obtain ⟨-, hw⟩ := (repairCell_sugar_iff g y x).mp hrc
    have htr := hasWater_transpose g.kill_sugar g x y
      (fun p q => valAt_water_kill_sugar g h p q)
    rw [htr]
    exact hw
  · rw [if_neg hb] at hS
    exact absurd hS (by simp)

theorem breedRaw_size_x (a b : Farm) : (Farm.breedRaw a b).size_x = a.size_x := rfl

theorem breedRaw_size_y (a b : Farm) : (Farm.breedRaw a b).size_y = b.size_y := rfl

theorem breedRaw_cellAt (a b : Farm) (x y : ℕ) :
    (Farm.breedRaw a b).cellAt x y =
      if y < a.size_x ∧ x < a.size_y then
        (match a.valAt y x with
          | Tile.Air => b.valAt y x
          | t => t)
      else Tile.Air := by
  unfold breedRaw cellAt valAt
  exact mkGrid_getD _ _ _ y x

theorem crossTile_self (t : Tile) :
    (match t with
      | Tile.Air => t
      | t' => t') = t := by
  cases t <;> rfl

theorem breedRaw_self_get_tile (a : Farm) (h : a.size_x = a.size_y) (x y : ℕ) :
    (Farm.breedRaw a a).get_tile x y = a.get_tile y x := by
  rw [get_tile_eq, get_tile_eq, breedRaw_size_x, breedRaw_size_y]
  by_cases hb : x < a.size_x ∧ y < a.size_y
  · rw [if_pos hb, if_pos (⟨by omega, by omega⟩ : y < a.size_x ∧ x < a.size_y)]
    rw [breedRaw_cellAt, if_pos (⟨by omega, by omega⟩ : y < a.size_x ∧ x < a.size_y)]
    rw [crossTile_self (a.valAt y x)]
    rw [valAt_eq, if_pos (⟨by omega, by omega⟩ : y < a.size_x ∧ x < a.size_y)]
  · rw [if_neg hb, if_neg (by omega : ¬(y < a.size_x ∧ x < a.size_y))]

theorem breedRaw_self_valAt (a : Farm) (h : a.size_x = a.size_y) (p q : ℕ) :
    (Farm.breedRaw a a).valAt p q = a.valAt q p := by
  unfold valAt
  rw [breedRaw_self_get_tile a h]

theorem repairCell_breedRaw_self (a : Farm) (h : a.size_x = a.size_y) (x y : ℕ) :
    (Farm.breedRaw a a).repairCell x y = a.repairCell y x := by
  have hw : (Farm.breedRaw a a).has_water_in_neighbourhood x y =
      a.has_water_in_neighbourhood y x :=
    hasWater_transpose _ _ x y (fun p q => by rw [breedRaw_self_valAt a h p q])
  unfold repairCell
  rw [breedRaw_self_get_tile a h x y, hw]

theorem repairCell_kill_sugar (g : Farm) (h : g.size_x = g.size_y) (x y : ℕ) :
    g.kill_sugar.repairCell x y = g.repairCell y x := by
  have hwtr : g.kill_sugar.has_water_in_neighbourhood x y =
      g.has_water_in_neighbourhood y x :=
    hasWater_transpose _ _ x y (fun p q => valAt_water_kill_sugar g h p q)
  by_cases hb : x < g.size_x ∧ y < g.size_y
  · have hget : g.kill_sugar.get_tile x y = some (g.repairCell y x) := by
      rw [get_tile_kill_sugar g h, if_pos hb]
    cases hv : g.repairCell y x with
    | Sugar =>
        obtain ⟨-, hw'⟩ := (repairCell_sugar_iff g y x).mp hv
        exact (repairCell_sugar_iff _ x y).mpr
          ⟨hget.trans (by rw [hv]), by rw [hwtr]; exact hw'⟩
    | Water =>
        exact (repairCell_water_iff _ x y).mpr (hget.trans (by rw [hv]))
    | Air =>
        exact (repairCell_air_iff _ x y).mpr (Or.inl (hget.trans (by rw [hv])))
  · have hget : g.kill_sugar.get_tile x y = none := by
      rw [get_tile_kill_sugar g h, if_neg hb]
    have hget2 : g.get_tile y x = none := by
      rw [get_tile_eq, if_neg (by omega : ¬(y < g.size_x ∧ x < g.size_y))]
    have e1 : g.kill_sugar.repairCell x y = Tile.Air :=
      (repairCell_air_iff _ x y).mpr (Or.inr (Or.inr hget))
    have e2 : g.repairCell y x = Tile.Air :=
      (repairCell_air_iff _ y x).mpr (Or.inr (Or.inr hget2))
    rw [e1, e2]

theorem breed_self_eq_double_kill (a : Farm) (h : a.size_x = a.size_y) :
    Farm.breed a a = a.kill_sugar.kill_sugar := by
  have ht : mkGrid a.size_x a.size_y (fun x y => (Farm.breedRaw a a).repairCell x y) =
      mkGrid a.size_x a.size_y (fun x y => a.kill_sugar.repairCell x y) :=
    mkGrid_congr _ _ _ _ (fun x _ y _ => by
      rw [repairCell_breedRaw_self a h x y, repairCell_kill_sugar a h x y])
  show Farm.mk
      (mkGrid a.size_x a.size_y (fun x y => (Farm.breedRaw a a).repairCell x y))
      a.size_x a.size_y =
    Farm.mk
      (mkGrid a.size_x a.size_y (fun x y => a.kill_sugar.repairCell x y))
      a.size_x a.size_y
  rw [ht]

end Farm

namespace Farm

theorem populate_cellAt (g : Farm) (x y : ℕ) :
    g.populate_with_air.cellAt x y = Tile.Air := by
  unfold populate_with_air cellAt
  rw [mkGrid_getD]
  split <;> rfl

theorem populate_repairCell (g : Farm) (x y : ℕ) :
    g.populate_with_air.repairCell x y = Tile.Air := by
  unfold repairCell
  rcases h : g.populate_with_air.get_tile x y with - | t
  · rfl
  · have ht : t = Tile.Air := by
      rw [get_tile_eq] at h
      split at h
      · have := populate_cellAt g x y
        injection h with h'
        rw [this] at h'
        exact h'.symm
      · exact Option.noConfusion h
    subst ht
    rfl

theorem new_rect_invariant (sx sy : ℕ) : (Farm.new_rect sx sy).Invariant := by
  intro x y hS
  exfalso
  unfold new_rect at hS
  rw [get_tile_eq] at hS
  split at hS
  · have h1 :
        (Farm.populate_with_air
            { tiles := [], size_x := sx, size_y := sy }).kill_sugar.cellAt x y =
          Tile.Sugar := by
      simpa using hS
    rw [kill_sugar_cellAt] at h1
    split at h1
    · rw [populate_repairCell] at h1
      exact Tile.noConfusion h1
    · exact Tile.noConfusion h1
  · exact Option.noConfusion hS

theorem breed_invariant (a b : Farm) (ha : a.size_x = a.size_y)
    (hb : b.size_y = a.size_y) : (Farm.breed a b).Invariant := by
  unfold breed
  exact kill_sugar_invariant _ (by rw [breedRaw_size_x, breedRaw_size_y]; omega)

theorem mutate_sizes (g : Farm) (factor : ℚ) (r : Rng) (g' : Farm) (r' : Rng)
    (h : g.mutate factor r = some (g', r')) :
    g'.size_x = g.size_x ∧ g'.size_y = g.size_y := by
  unfold mutate at h
  rcases hm : Farm.mutateGrid factor
      (mkGrid g.size_x g.size_y (fun x y => (g.tiles.getD x []).getD y Tile.Air)) r
    with - | p
  · rw [hm] at h
    exact Option.noConfusion h
  · rw [hm] at h
    simp only [Option.map] at h
    obtain ⟨h1, -⟩ := Prod.mk.injEq .. ▸ Option.some.inj h
    rw [← h1]
    exact ⟨rfl, rfl⟩

theorem mutateTile_isSome (factor : ℚ) (t : Tile) (r : Rng) :
    (Farm.mutateTile factor t r).isSome = true := by
  simp only [mutateTile, Rng.genFloat, Rng.genRange]
  split
  · have h3 : r.nats r.npos % 3 < 3 := Nat.mod_lt _ (by norm_num)
    rcases hn : r.nats r.npos % 3 with - | - | - | k
    · simp
    · simp
    · simp
    · omega
  · simp

theorem mutateRow_isSome (factor : ℚ) (row : List Tile) (r : Rng) :
    (Farm.mutateRow factor row r).isSome = true := by
  induction row generalizing r with
  | nil => rfl
  | cons t ts ih =>
      rcases hmt : Farm.mutateTile factor t r with - | p
      · have h := mutateTile_isSome factor t r
        rw [hmt] at h
        exact absurd h (by simp)
      · obtain ⟨t', r1⟩ := p
        rcases hmr : Farm.mutateRow factor ts r1 with - | q
        · have h := ih r1
          rw [hmr] at h
          exact absurd h (by simp)
        · obtain ⟨ts', r2⟩ := q
          simp [Farm.mutateRow, hmt, hmr]

theorem mutateGrid_isSome (factor : ℚ) (rows : List (List Tile)) (r : Rng) :
    (Farm.mutateGrid factor rows r).isSome = true := by
  induction rows generalizing r with
  | nil => rfl
  | cons row rows ih =>
      rcases hmr : Farm.mutateRow factor row r with - | p
      · have h := mutateRow_isSome factor row r
        rw [hmr] at h
        exact absurd h (by simp)
      · obtain ⟨row', r1⟩ := p
        rcases hmg : Farm.mutateGrid factor rows r1 with - | q
        · have h := ih r1
          rw [hmg] at h
          exact absurd h (by simp)
        · obtain ⟨rows', r2⟩ := q
          simp [Farm.mutateGrid, hmr, hmg]

theorem mutate_isSome_aux (g : Farm) (factor : ℚ) (r : Rng) :
    (g.mutate factor r).isSome = true := by
  unfold mutate
  rcases hm : Farm.mutateGrid factor
      (mkGrid g.size_x g.size_y (fun x y => (g.tiles.getD x []).getD y Tile.Air)) r
    with - | p
  · have h := mutateGrid_isSome factor
      (mkGrid g.size_x g.size_y (fun x y => (g.tiles.getD x []).getD y Tile.Air)) r
    rw [hm] at h
    exact absurd h (by simp)
  · simp

theorem repopulateAux_prefix (population : ℕ) (factor : ℚ) :
    ∀ (fuel : ℕ) (farms : List Farm) (r : Rng) (res : List Farm × Rng),
      Farm.repopulateAux population factor fuel farms r = some res →
      res.1.take farms.length = farms := by
  intro fuel
  induction fuel with
  | zero =>
      intro farms r res h
      simp only [Farm.repopulateAux] at h
      obtain rfl : (farms, r) = res := Option.some.inj h
      exact List.take_length _
  | succ fuel ih =>
      intro farms r res h
      simp only [Farm.repopulateAux, Rng.genRange] at h
      split at h
      · split at h
        · exact Option.noConfusion h
        · rcases hi : farms.get? (r.nats r.npos % (population / 3)) with - | pa <;>
            rw [hi] at h
          · exact Option.noConfusion h
          · rcases hj :
                farms.get?
                  ((({ r with npos := r.npos + 1 } : Rng)).nats
                      ({ r with npos := r.npos + 1 } : Rng).npos %
                    (population / 3)) with - | pb <;> rw [hj] at h
            · exact Option.noConfusion h
            · dsimp only at h
              rcases hmut : Farm.mutate (Farm.breed pa pb) factor
                  { r with npos := r.npos + 1 + 1 } with - | pc
              · rw [hmut] at h
                exact Option.noConfusion h
              · obtain ⟨child2, r3⟩ := pc
                rw [hmut] at h
                dsimp only at h
                have h2 := ih _ _ _ h
                have hlen : (farms ++ [child2.kill_sugar]).length = farms.length + 1 := by
                  simp
                calc res.1.take farms.length
                    = (res.1.take (farms.length + 1)).take farms.length := by
                      rw [List.take_take]
                      congr 1
                      omega
                  _ = (farms ++ [child2.kill_sugar]).take farms.length := by
                      rw [← hlen, h2]
                  _ = farms := List.take_left ..
      · obtain rfl : (farms, r) = res := Option.some.inj h
        exact List.take_length _

end Farm

/-! ## Properties of the `f64` model -/

theorem bitsAux_zero (fuel : ℕ) : bitsAux fuel 0 = 0 := by
  cases fuel <;> rfl

theorem bitsAux_bounds :
    ∀ (fuel n : ℕ), n ≤ fuel → 1 ≤ n →
      2 ^ (bitsAux fuel n - 1) ≤ n ∧ n < 2 ^ bitsAux fuel n := by
  intro fuel
  induction fuel with
  | zero => intro n h1 h2; omega
  | succ fuel ih =>
      intro n h1 h2
      rw [bitsAux, if_neg (by omega : ¬n = 0)]
      by_cases hn : n = 1
      · subst hn
        rw [show (1 : ℕ) / 2 = 0 from rfl, bitsAux_zero]
        norm_num
      · have hge2 : 2 ≤ n := by omega
        obtain ⟨hlo, hhi⟩ := ih (n / 2) (by omega) (by omega)
        have hb1 : 1 ≤ bitsAux fuel (n / 2) := by
          by_contra hc
          have hz : bitsAux fuel (n / 2) = 0 := by omega
          rw [hz] at hhi
          omega
        constructor
        · have hsp : 2 ^ bitsAux fuel (n / 2) = 2 * 2 ^ (bitsAux fuel (n / 2) - 1) := by
            rw [← pow_succ']
            congr 1
            omega
          calc 2 ^ (bitsAux fuel (n / 2) + 1 - 1)
              = 2 ^ bitsAux fuel (n / 2) := by congr 1
            _ = 2 * 2 ^ (bitsAux fuel (n / 2) - 1) := hsp
            _ ≤ 2 * (n / 2) := by omega
            _ ≤ n := by omega
        · calc n < 2 * (n / 2) + 2 := by omega
            _ ≤ 2 * 2 ^ bitsAux fuel (n / 2) := by omega
            _ = 2 ^ (bitsAux fuel (n / 2) + 1) := (pow_succ' 2 _).symm

theorem bits_bounds (n : ℕ) (h : 1 ≤ n) :
    2 ^ (bits n - 1) ≤ n ∧ n < 2 ^ bits n :=
  bitsAux_bounds n n le_rfl h

theorem roundHE_le (x : ℚ) : (roundHE x : ℚ) ≤ x + 1 / 2 := by
  have hf := Int.floor_le x
  have hf2 := Int.lt_floor_add_one x
  unfold roundHE
  split
  · linarith
  · split
    · next h1 h2 => push_cast; linarith
    · next h1 h2 =>
        have hr : x - ⌊x⌋ = 1 / 2 := by linarith
        split <;> push_cast <;> linarith

theorem roundHE_ge (x : ℚ) : x - 1 / 2 ≤ (roundHE x : ℚ) := by
  have hf := Int.floor_le x
  have hf2 := Int.lt_floor_add_one x
  unfold roundHE
  split
  · next h1 => linarith
  · split
    · next h1 h2 => push_cast; linarith
    · next h1 h2 =>
        have hr : x - ⌊x⌋ = 1 / 2 := by linarith
        split <;> push_cast <;> linarith

theorem roundHE_mono (x y : ℚ) (h : x ≤ y) : roundHE x ≤ roundHE y := by
  by_contra hc
  push_neg at hc
  have h1 : (roundHE y : ℚ) + 1 ≤ (roundHE x : ℚ) := by
    have := Int.add_one_le_iff.mpr hc
    exact_mod_cast this
  have h2 := roundHE_le x
  have h3 := roundHE_ge y
  have hxy : x = y := le_antisymm h (by linarith)
  subst hxy
  exact absurd hc (lt_irrefl _)

theorem flExpNat_spec (q : ℚ) (h : 1 ≤ q) :
    (2 : ℚ) ^ ((bits ⌊q⌋.toNat : ℤ) - 1) ≤ q ∧ q < 2 ^ (bits ⌊q⌋.toNat : ℤ) := by
  have hfl : 1 ≤ ⌊q⌋ := by
    rw [Int.le_floor]
    exact_mod_cast h
  have hn1 : 1 ≤ ⌊q⌋.toNat := by omega
  obtain ⟨hlo, hhi⟩ := bits_bounds ⌊q⌋.toNat hn1
  have hb1 : 1 ≤ bits ⌊q⌋.toNat := by
    by_contra hc
    have hz : bits ⌊q⌋.toNat = 0 := by omega
    rw [hz] at hhi
    omega
  have hcast : ((⌊q⌋.toNat : ℕ) : ℚ) = ((⌊q⌋ : ℤ) : ℚ) := by
    exact_mod_cast Int.toNat_of_nonneg (by omega : (0 : ℤ) ≤ ⌊q⌋)
  have hfq : ((⌊q⌋.toNat : ℕ) : ℚ) ≤ q := by
    rw [hcast]
    exact Int.floor_le q
  have hq : q < ((⌊q⌋.toNat : ℕ) : ℚ) + 1 := by
    rw [hcast]
    exact Int.lt_floor_add_one q
  constructor
  · have he : (2 : ℚ) ^ ((bits ⌊q⌋.toNat : ℤ) - 1) =
        ((2 ^ (bits ⌊q⌋.toNat - 1) : ℕ) : ℚ) := by
      rw [show (bits ⌊q⌋.toNat : ℤ) - 1 = ((bits ⌊q⌋.toNat - 1 : ℕ) : ℤ) by omega,
        zpow_natCast]
      push_cast
      ring
    rw [he]
    calc ((2 ^ (bits ⌊q⌋.toNat - 1) : ℕ) : ℚ) ≤ ((⌊q⌋.toNat : ℕ) : ℚ) := by
          exact_mod_cast hlo
      _ ≤ q := hfq
  · have he : (2 : ℚ) ^ ((bits ⌊q⌋.toNat : ℤ)) = ((2 ^ bits ⌊q⌋.toNat : ℕ) : ℚ) := by
      rw [zpow_natCast]
      push_cast
      ring
    rw [he]
    calc q < ((⌊q⌋.toNat : ℕ) : ℚ) + 1 := hq
      _ ≤ ((2 ^ bits ⌊q⌋.toNat : ℕ) : ℚ) := by exact_mod_cast hhi

theorem flExp_spec (q : ℚ) (h : 0 < q) :
    (2 : ℚ) ^ flExp q ≤ q ∧ q < 2 ^ (flExp q + 1) := by
  unfold flExp
  split
  · next h1 =>
      obtain ⟨hlo, hhi⟩ := flExpNat_spec q h1
      refine ⟨hlo, ?_⟩
      have he : (bits ⌊q⌋.toNat : ℤ) - 1 + 1 = (bits ⌊q⌋.toNat : ℤ) := by ring
      rw [he]
      exact hhi
  · next h1 =>
      push_neg at h1
      have hqi : 1 ≤ q⁻¹ := one_le_inv_iff₀.mpr ⟨h, le_of_lt h1⟩
      obtain ⟨hlo, hhi⟩ := flExpNat_spec q⁻¹ hqi
      have h2f : (0 : ℚ) < 2 ^ ((bits ⌊q⁻¹⌋.toNat : ℤ) - 1) := zpow_pos (by norm_num) _
      have h2f1 : (0 : ℚ) < 2 ^ ((bits ⌊q⁻¹⌋.toNat : ℤ) - 1 + 1) := zpow_pos (by norm_num) _
      have hq_le : q ≤ 2 ^ (-((bits ⌊q⁻¹⌋.toNat : ℤ) - 1)) := by
        have step : q * 2 ^ ((bits ⌊q⁻¹⌋.toNat : ℤ) - 1) ≤ 1 := by
          calc q * 2 ^ ((bits ⌊q⁻¹⌋.toNat : ℤ) - 1) ≤ q * q⁻¹ :=
                mul_le_mul_of_nonneg_left hlo (le_of_lt h)
            _ = 1 := mul_inv_cancel₀ (ne_of_gt h)
        rw [zpow_neg]
        calc q = q * 2 ^ ((bits ⌊q⁻¹⌋.toNat : ℤ) - 1) *
              (2 ^ ((bits ⌊q⁻¹⌋.toNat : ℤ) - 1))⁻¹ := by
              field_simp
          _ ≤ 1 * (2 ^ ((bits ⌊q⁻¹⌋.toNat : ℤ) - 1))⁻¹ :=
              mul_le_mul_of_nonneg_right step (by positivity)
          _ = (2 ^ ((bits ⌊q⁻¹⌋.toNat : ℤ) - 1))⁻¹ := one_mul _
      have hq_gt : 2 ^ (-((bits ⌊q⁻¹⌋.toNat : ℤ) - 1) - 1) < q := by
        have step : 1 < q * 2 ^ ((bits ⌊q⁻¹⌋.toNat : ℤ) - 1 + 1) := by
          calc 1 = q * q⁻¹ := (mul_inv_cancel₀ (ne_of_gt h)).symm
            _ < q * 2 ^ ((bits ⌊q⁻¹⌋.toNat : ℤ) - 1 + 1) := by
                apply mul_lt_mul_of_pos_left _ h
                have he2 : (2 : ℚ) ^ ((bits ⌊q⁻¹⌋.toNat : ℤ)) =
                    (2 : ℚ) ^ ((bits ⌊q⁻¹⌋.toNat : ℤ) - 1 + 1) := by
                  congr 1
                  ring
                rw [← he2]
                exact hhi
        have he3 : -((bits ⌊q⁻¹⌋.toNat : ℤ) - 1) - 1 =
            -((bits ⌊q⁻¹⌋.toNat : ℤ) - 1 + 1) := by ring
        rw [he3, zpow_neg]
        calc (2 ^ ((bits ⌊q⁻¹⌋.toNat : ℤ) - 1 + 1))⁻¹
            = 1 * (2 ^ ((bits ⌊q⁻¹⌋.toNat : ℤ) - 1 + 1))⁻¹ := (one_mul _).symm
          _ < q * 2 ^ ((bits ⌊q⁻¹⌋.toNat : ℤ) - 1 + 1) *
              (2 ^ ((bits ⌊q⁻¹⌋.toNat : ℤ) - 1 + 1))⁻¹ :=
              mul_lt_mul_of_pos_right step (by positivity)
          _ = q := by field_simp
      split
      · next hcase =>
          refine ⟨hcase, ?_⟩
          calc q ≤ 2 ^ (-((bits ⌊q⁻¹⌋.toNat : ℤ) - 1)) := hq_le
            _ < 2 ^ (-((bits ⌊q⁻¹⌋.toNat : ℤ) - 1) + 1) := by
                rw [zpow_add_one₀ (by norm_num : (2 : ℚ) ≠ 0)]
                nlinarith [zpow_pos (by norm_num : (0:ℚ) < 2)
                  (-((bits ⌊q⁻¹⌋.toNat : ℤ) - 1))]
      · next hcase =>
          push_neg at hcase
          refine ⟨le_of_lt hq_gt, ?_⟩
          have he4 : -((bits ⌊q⁻¹⌋.toNat : ℤ) - 1) - 1 + 1 =
              -((bits ⌊q⁻¹⌋.toNat : ℤ) - 1) := by ring
          rw [he4]
          exact hcase

theorem flExp_mono (q1 q2 : ℚ) (h1 : 0 < q1) (h : q1 ≤ q2) :
    flExp q1 ≤ flExp q2 := by
  obtain ⟨hlo1, -⟩ := flExp_spec q1 h1
  obtain ⟨-, hhi2⟩ := flExp_spec q2 (lt_of_lt_of_le h1 h)
  by_contra hc
  push_neg at hc
  have hz : (2 : ℚ) ^ (flExp q2 + 1) ≤ 2 ^ flExp q1 :=
    zpow_le_zpow_right₀ (by norm_num) (by omega)
  have : q2 < q1 := lt_of_lt_of_le hhi2 (le_trans hz hlo1)
  linarith

theorem fl_nonneg (q : ℚ) : 0 ≤ fl q := by
  unfold fl
  split
  · exact le_rfl
  · next hq =>
      push_neg at hq
      have hx : (0 : ℚ) < q * 2 ^ (52 - flExp q) := by positivity
      have hr : (0 : ℤ) ≤ roundHE (q * 2 ^ (52 - flExp q)) := by
        by_contra hc
        push_neg at hc
        have hc2 : (roundHE (q * 2 ^ (52 - flExp q)) : ℚ) ≤ -1 := by
          exact_mod_cast Int.le_sub_one_of_lt hc
        have hge := roundHE_ge (q * 2 ^ (52 - flExp q))
        linarith
      exact mul_nonneg (by exact_mod_cast hr) (le_of_lt (zpow_pos (by norm_num) _))

theorem fl_pos_bounds (q : ℚ) (h : 0 < q) :
    (2 : ℚ) ^ flExp q ≤ fl q ∧ fl q ≤ 2 ^ (flExp q + 1) := by
  obtain ⟨hlo, hhi⟩ := flExp_spec q h
  have hx_lo : (2 : ℚ) ^ (52 : ℤ) ≤ q * 2 ^ (52 - flExp q) := by
    calc (2 : ℚ) ^ (52 : ℤ) = 2 ^ flExp q * 2 ^ (52 - flExp q) := by
          rw [← zpow_add₀ (by norm_num : (2 : ℚ) ≠ 0)]
          congr 1
          ring
      _ ≤ q * 2 ^ (52 - flExp q) :=
          mul_le_mul_of_nonneg_right hlo (le_of_lt (zpow_pos (by norm_num) _))
  have hx_hi : q * 2 ^ (52 - flExp q) < (2 : ℚ) ^ (53 : ℤ) := by
    calc q * 2 ^ (52 - flExp q) < 2 ^ (flExp q + 1) * 2 ^ (52 - flExp q) :=
          mul_lt_mul_of_pos_right hhi (zpow_pos (by norm_num) _)
      _ = (2 : ℚ) ^ (53 : ℤ) := by
          rw [← zpow_add₀ (by norm_num : (2 : ℚ) ≠ 0)]
          congr 1
          ring
  have hn_lo : ((2 : ℤ) ^ (52 : ℕ)) ≤ roundHE (q * 2 ^ (52 - flExp q)) := by
    by_contra hc
    push_neg at hc
    have hc2 : (roundHE (q * 2 ^ (52 - flExp q)) : ℚ) ≤ (2 : ℚ) ^ (52 : ℕ) - 1 := by
      have := Int.le_sub_one_of_lt hc
      push_cast at this ⊢
      exact_mod_cast this
    have hge := roundHE_ge (q * 2 ^ (52 - flExp q))
    have hcast : (2 : ℚ) ^ (52 : ℤ) = (2 : ℚ) ^ (52 : ℕ) := by
      rw [show ((52 : ℤ)) = ((52 : ℕ) : ℤ) from rfl, zpow_natCast]
    rw [hcast] at hx_lo
    linarith
  have hn_hi : roundHE (q * 2 ^ (52 - flExp q)) ≤ ((2 : ℤ) ^ (53 : ℕ)) := by
    by_contra hc
    push_neg at hc
    have hc2 : ((2 : ℚ) ^ (53 : ℕ)) + 1 ≤ (roundHE (q * 2 ^ (52 - flExp q)) : ℚ) := by
      have := Int.add_one_le_iff.mpr hc
      push_cast at this ⊢
      exact_mod_cast this
    have hle := roundHE_le (q * 2 ^ (52 - flExp q))
    have hcast : (2 : ℚ) ^ (53 : ℤ) = (2 : ℚ) ^ (53 : ℕ) := by
      rw [show ((53 : ℤ)) = ((53 : ℕ) : ℤ) from rfl, zpow_natCast]
    rw [hcast] at hx_hi
    linarith
  have hfl : fl q = (roundHE (q * 2 ^ (52 - flExp q)) : ℚ) * 2 ^ (flExp q - 52) := by
    unfold fl
    rw [if_neg (not_le.mpr h)]
  constructor
  · rw [hfl]
    calc (2 : ℚ) ^ flExp q = (2 : ℚ) ^ (52 : ℤ) * 2 ^ (flExp q - 52) := by
          rw [← zpow_add₀ (by norm_num : (2 : ℚ) ≠ 0)]
          congr 1
          ring
      _ ≤ (roundHE (q * 2 ^ (52 - flExp q)) : ℚ) * 2 ^ (flExp q - 52) := by
          apply mul_le_mul_of_nonneg_right _ (le_of_lt (zpow_pos (by norm_num) _))
          have : ((2 : ℤ) ^ (52 : ℕ) : ℚ) ≤ (roundHE (q * 2 ^ (52 - flExp q)) : ℚ) := by
            exact_mod_cast hn_lo
          calc (2 : ℚ) ^ (52 : ℤ) = ((2 : ℤ) ^ (52 : ℕ) : ℚ) := by
                rw [show ((52 : ℤ)) = ((52 : ℕ) : ℤ) from rfl, zpow_natCast]
                push_cast
                ring
            _ ≤ _ := this
  · rw [hfl]
    calc (roundHE (q * 2 ^ (52 - flExp q)) : ℚ) * 2 ^ (flExp q - 52)
        ≤ (2 : ℚ) ^ (53 : ℤ) * 2 ^ (flExp q - 52) := by
          apply mul_le_mul_of_nonneg_right _ (le_of_lt (zpow_pos (by norm_num) _))
          have : (roundHE (q * 2 ^ (52 - flExp q)) : ℚ) ≤ ((2 : ℤ) ^ (53 : ℕ) : ℚ) := by
            exact_mod_cast hn_hi
          calc (roundHE (q * 2 ^ (52 - flExp q)) : ℚ) ≤ ((2 : ℤ) ^ (53 : ℕ) : ℚ) := this
            _ = (2 : ℚ) ^ (53 : ℤ) := by
                rw [show ((53 : ℤ)) = ((53 : ℕ) : ℤ) from rfl, zpow_natCast]
                push_cast
                ring
      _ = 2 ^ (flExp q + 1) := by
          rw [← zpow_add₀ (by norm_num : (2 : ℚ) ≠ 0)]
          congr 1
          ring

theorem fl_mono (q1 q2 : ℚ) (h : q1 ≤ q2) : fl q1 ≤ fl q2 := by
  by_cases h1 : q1 ≤ 0
  · have hz : fl q1 = 0 := by unfold fl; rw [if_pos h1]
    rw [hz]
    exact fl_nonneg q2
  · push_neg at h1
    have h2 : 0 < q2 := lt_of_lt_of_le h1 h
    have he := flExp_mono q1 q2 h1 h
    rcases eq_or_lt_of_le he with heq | hlt
    · have hfl1 : fl q1 = (roundHE (q1 * 2 ^ (52 - flExp q1)) : ℚ) * 2 ^ (flExp q1 - 52) := by
        unfold fl
        rw [if_neg (not_le.mpr h1)]
      have hfl2 : fl q2 = (roundHE (q2 * 2 ^ (52 - flExp q2)) : ℚ) * 2 ^ (flExp q2 - 52) := by
        unfold fl
        rw [if_neg (not_le.mpr h2)]
      rw [hfl1, hfl2, ← heq]
      apply mul_le_mul_of_nonneg_right _ (le_of_lt (zpow_pos (by norm_num) _))
      have hr := roundHE_mono (q1 * 2 ^ (52 - flExp q1)) (q2 * 2 ^ (52 - flExp q1))
        (mul_le_mul_of_nonneg_right h (le_of_lt (zpow_pos (by norm_num) _)))
      exact_mod_cast hr
    · calc fl q1 ≤ 2 ^ (flExp q1 + 1) := (fl_pos_bounds q1 h1).2
        _ ≤ 2 ^ flExp q2 := zpow_le_zpow_right₀ (by norm_num) (by omega)
        _ ≤ fl q2 := (fl_pos_bounds q2 h2).1

set_option maxRecDepth 100000 in
theorem fl_one : fl 1 = 1 := by
  with_unfolding_all rfl

set_option maxRecDepth 100000 in
theorem fl_fifty : fl 50 = 50 := by
  with_unfolding_all rfl

/-- Core bound for both symmetry scores: for a matched count of at most
the total count, the `f64` pipeline `(m as f64 / t as f64 * 50.0) as usize`
yields at most 50. -/
theorem symmetry_pipeline_le (m t : ℕ) (hmt : m ≤ t) :
    f64toNat (f64mul (f64div (f64ofNat m) (f64ofNat t)) 50) ≤ 50 := by
  have hm : fl (m : ℚ) ≤ fl (t : ℚ) := fl_mono _ _ (by exact_mod_cast hmt)
  have hmn : 0 ≤ fl (m : ℚ) := fl_nonneg _
  have htn : 0 ≤ fl (t : ℚ) := fl_nonneg _
  have hdiv : fl (m : ℚ) / fl (t : ℚ) ≤ 1 := by
    rcases eq_or_lt_of_le htn with h0 | hpos
    · rw [← h0]
      simp
    · exact (div_le_one hpos).mpr hm
  have hq : f64div (f64ofNat m) (f64ofNat t) ≤ 1 := by
    unfold f64div f64ofNat
    calc fl (fl (m : ℚ) / fl (t : ℚ)) ≤ fl 1 := fl_mono _ _ hdiv
      _ = 1 := fl_one
  have hmul : f64mul (f64div (f64ofNat m) (f64ofNat t)) 50 ≤ 50 := by
    unfold f64mul
    calc fl (f64div (f64ofNat m) (f64ofNat t) * 50) ≤ fl 50 :=
          fl_mono _ _ (by nlinarith)
      _ = 50 := fl_fifty
  unfold f64toNat
  have hfloor : ⌊f64mul (f64div (f64ofNat m) (f64ofNat t)) 50⌋ ≤ 50 := by
    calc ⌊f64mul (f64div (f64ofNat m) (f64ofNat t)) 50⌋ ≤ ⌊(50 : ℚ)⌋ :=
          Int.floor_mono hmul
      _ = 50 := by norm_num
  omega

namespace Farm

theorem verticalMatches_le (g : Farm) (hWF : g.WF) :
    g.verticalMatches ≤ g.size_x * g.size_y := by
  obtain ⟨hlen, hrows⟩ := hWF
  unfold verticalMatches
  calc (g.tiles.map (fun row =>
          ((List.range row.length).filter (fun x =>
              decide (row.getD x Tile.Air =
                row.getD (g.size_x - 1 - x) Tile.Air))).length)).sum
      ≤ (g.tiles.map (fun row => row.length)).sum := by
        apply List.sum_le_sum
        intro row hrow
        calc ((List.range row.length).filter _).length
            ≤ (List.range row.length).length := List.length_filter_le _ _
          _ = row.length := List.length_range _
    _ = (g.tiles.map (fun _ => g.size_y)).sum := by
        congr 1
        exact List.map_congr_left (fun row hrow => hrows row hrow)
    _ = g.tiles.length * g.size_y := by
        induction g.tiles with
        | nil => simp
        | cons r rs ih => simp [ih]; ring
    _ = g.size_x * g.size_y := by rw [hlen]

theorem horizontalMatches_le (g : Farm) (hWF : g.WF) :
    g.horizontalMatches ≤ g.size_x * g.size_y := by
  obtain ⟨hlen, hrows⟩ := hWF
  unfold horizontalMatches
  calc (g.tiles.enum.map (fun p =>
          ((List.range p.2.length).filter (fun x =>
              decide (p.2.getD x Tile.Air =
                (g.tiles.getD (g.size_y - 1 - p.1) []).getD x Tile.Air))).length)).sum
      ≤ (g.tiles.enum.map (fun p => p.2.length)).sum := by
        apply List.sum_le_sum
        intro p hp
        calc ((List.range p.2.length).filter _).length
            ≤ (List.range p.2.length).length := List.length_filter_le _ _
          _ = p.2.length := List.length_range _
    _ = (g.tiles.map (fun row => row.length)).sum := by
        have hsnd : g.tiles.enum.map (fun p => p.2.length) =
            (g.tiles.enum.map Prod.snd).map (fun row => row.length) := by
          rw [List.map_map]
          rfl
        rw [hsnd, List.enum_map_snd]
    _ = (g.tiles.map (fun _ => g.size_y)).sum := by
        congr 1
        exact List.map_congr_left (fun row hrow => hrows row hrow)
    _ = g.tiles.length * g.size_y := by
        induction g.tiles with
        | nil => simp
        | cons r rs ih => simp [ih]; ring
    _ = g.size_x * g.size_y := by rw [hlen]

theorem foldl_row_sugar (row : List Tile) (s : ℕ) :
    row.foldl
        (fun s t =>
          match t with
          | Tile.Sugar => s + 100
          | _ => s)
        s =
      s + 100 * (row.filter (fun t => decide (t = Tile.Sugar))).length := by
  induction row generalizing s with
  | nil => simp
  | cons t ts ih =>
      cases t <;> simp [List.foldl_cons, ih, List.filter] <;> ring

theorem get_sugar_score_eq (g : Farm) :
    g.get_sugar_score = 100 * g.sugarCount := by
  have key : ∀ (rows : List (List Tile)) (s : ℕ),
      rows.foldl
          (fun s row =>
            row.foldl
              (fun s t =>
                match t with
                | Tile.Sugar => s + 100
                | _ => s)
              s)
          s =
        s + 100 * (rows.map (fun row =>
            (row.filter (fun t => decide (t = Tile.Sugar))).length)).sum := by
    intro rows
    induction rows with
    | nil => simp
    | cons row rows ih =>
        intro s
        rw [List.foldl_cons, foldl_row_sugar, ih]
        simp [List.map_cons, List.sum_cons]
        ring
  unfold get_sugar_score sugarCount
  simpa using key g.tiles 0

theorem vertical_score_le (g : Farm) (hWF : g.WF) :
    g.get_vertical_symmetry_score ≤ 50 := by
  unfold get_vertical_symmetry_score
  exact symmetry_pipeline_le _ _ (verticalMatches_le g hWF)

theorem horizontal_score_le (g : Farm) (hWF : g.WF) :
    g.get_horizontal_symmetry_score ≤ 50 := by
  unfold get_horizontal_symmetry_score
  exact symmetry_pipeline_le _ _ (horizontalMatches_le g hWF)

end Farm

namespace Farm

theorem WF_row_length (g : Farm) (hWF : g.WF) (y : ℕ) (hy : y < g.size_x) :
    (g.tiles.getD y []).length = g.size_y := by
  obtain ⟨hlen, hrows⟩ := hWF
  have hy' : y < g.tiles.length := by omega
  have hmem : g.tiles.getD y [] ∈ g.tiles := by
    rw [List.getD_eq_getElem?_getD, List.getElem?_eq_getElem hy']
    exact List.getElem_mem hy'
  exact hrows _ hmem

theorem WF_getInBounds (g : Farm) (hWF : g.WF) (hsq : g.size_x = g.size_y)
    (x y : ℕ) (hx : x < g.size_x) (hy : y < g.size_y) : g.getInBounds x y := by
  constructor
  · rw [hWF.1]
    omega
  · rw [WF_row_length g hWF y (by omega)]
    omega

theorem WF_getSafe (g : Farm) (hWF : g.WF) (hsq : g.size_x = g.size_y)
    (x y : ℕ) : g.getSafe x y :=
  fun hx hy => WF_getInBounds g hWF hsq x y hx hy

theorem breedRaw_WF (a b : Farm) (hb : b.size_y = a.size_y) :
    (Farm.breedRaw a b).WF := by
  constructor
  · exact mkGrid_length _ _ _
  · intro row hrow
    have := mkGrid_mem_length a.size_x a.size_y _ row hrow
    rw [this, breedRaw_size_y, hb]

theorem WF_killSugarSafe (g : Farm) (hWF : g.WF) (hsq : g.size_x = g.size_y) :
    g.killSugarSafe := by
  intro x hx y hy
  refine ⟨WF_getSafe g hWF hsq x y, (get_tile_isSome g x y).mpr ⟨hx, hy⟩, ?_⟩
  exact ⟨fun _ => WF_getSafe g hWF hsq _ _, WF_getSafe g hWF hsq _ _,
    WF_getSafe g hWF hsq _ _, fun _ => WF_getSafe g hWF hsq _ _⟩

theorem kill_sugar_WF (g : Farm) : g.kill_sugar.WF := by
  constructor
  · exact mkGrid_length _ _ _
  · intro row hrow
    exact mkGrid_mem_length g.size_x g.size_y _ row hrow

theorem breed_no_shape_check_core (a b : Farm) (hWFa : a.WF) (hWFb : b.WF)
    (hsa : a.size_x = a.size_y) (hby : b.size_y = a.size_y)
    (hbx : a.size_x ≤ b.size_x) :
    Farm.breedSafe a b ∧ (Farm.breed a b).size_x = a.size_x ∧
      (Farm.breed a b).size_y = b.size_y ∧ (Farm.breed a b).WF := by
  have hcWF : (Farm.breedRaw a b).WF := breedRaw_WF a b hby
  have hcsq : (Farm.breedRaw a b).size_x = (Farm.breedRaw a b).size_y := by
    rw [breedRaw_size_x, breedRaw_size_y]
    omega
  refine ⟨⟨?_, WF_killSugarSafe _ hcWF hcsq⟩, rfl, rfl, ?_⟩
  · intro x hx y hy
    refine ⟨WF_getSafe a hWFa hsa x y, (get_tile_isSome a x y).mpr ⟨hx, by omega⟩,
      ?_, (get_tile_isSome b x y).mpr ⟨by omega, by omega⟩⟩
    intro hxb hyb
    constructor
    · rw [hWFb.1]
      omega
    · rw [WF_row_length b hWFb y (by omega)]
      omega
  · constructor
    · exact mkGrid_length _ _ _
    · intro row hrow
      have := mkGrid_mem_length (Farm.breedRaw a b).size_x (Farm.breedRaw a b).size_y
        _ row hrow
      rw [this]
      rfl

theorem get_neighbours_eq_spec (g : Farm) (x y : ℕ) :
    g.get_neighbours x y = g.neighboursSpec x y := by
  have e1 : ((x : ℤ) + 1).toNat = x + 1 := by omega
  have e2 : ((y : ℤ) + 1).toNat = y + 1 := by omega
  have e3 : ((x : ℤ)).toNat = x := by omega
  have e4 : ((y : ℤ)).toNat = y := by omega
  have e9 : (0 : ℤ) ≤ (x : ℤ) + 1 := by omega
  have e10 : (0 : ℤ) ≤ (y : ℤ) + 1 := by omega
  rw [get_neighbours_eq]
  unfold neighboursSpec neighbourAt valAt
  by_cases hy : y = 0 <;> by_cases hx : x = 0
  · subst hy; subst hx
    norm_num
  · subst hy
    have e5 : ((x : ℤ) - 1).toNat = x - 1 := by omega
    have e6 : (0 : ℤ) ≤ (x : ℤ) - 1 := by omega
    norm_num [e1, e3, e5, e6, e9, e10, hx]
  · subst hx
    have e7 : ((y : ℤ) - 1).toNat = y - 1 := by omega
    have e8 : (0 : ℤ) ≤ (y : ℤ) - 1 := by omega
    norm_num [e2, e4, e7, e8, e9, e10, hy]
  · have e5 : ((x : ℤ) - 1).toNat = x - 1 := by omega
    have e6 : (0 : ℤ) ≤ (x : ℤ) - 1 := by omega
    have e7 : ((y : ℤ) - 1).toNat = y - 1 := by omega
    have e8 : (0 : ℤ) ≤ (y : ℤ) - 1 := by omega
    norm_num [e1, e2, e3, e4, e5, e6, e7, e8, e9, e10, hx, hy]

end Farm

/-! ## Claims -/

set_option maxRecDepth 1000000 in
/-- C1 (counterexample): the claim says the next generation is entirely
composed of newly produced children, with no survivor carried forward
verbatim. In this concrete one-generation run with population 3, the
breeding pool is `[sugarFarm]` and the next population starts with
`sugarFarm` itself, carried forward verbatim, followed by the two bred
children. -/
theorem c1_survivor_carried_forward :
    Farm.survivorsOf 3 [airFarm, sugarFarm, waterFarm] = [sugarFarm] ∧
    (Farm.generationStep 3 0 [airFarm, sugarFarm, waterFarm] rngConst).map
        Prod.fst =
      some [sugarFarm, airFarm, airFarm] ∧
    sugarFarm ∈ [airFarm, sugarFarm, waterFarm] := by
  refine ⟨by with_unfolding_all rfl, by with_unfolding_all rfl, by simp⟩

/-- C1 (amended): after the selection step, the survivors are retained:
whenever a generation step of the population loop succeeds, the next
population begins with the breeding pool itself (the top third of the
sorted population), and the bred children are appended after it. -/
theorem c1_next_population_retains_survivors
    (population : ℕ) (factor : ℚ) (farms : List Farm) (r : Rng)
    (next : List Farm) (r' : Rng)
    (h : Farm.generationStep population factor farms r = some (next, r')) :
    next.take (Farm.survivorsOf population farms).length =
      Farm.survivorsOf population farms :=
  Farm.repopulateAux_prefix population factor population
    (Farm.survivorsOf population farms) r (next, r') h

set_option maxRecDepth 1000000 in
/-- Witness for C1's amended theorem on a concrete run. -/
theorem c1_next_population_retains_survivors_witness :
    Farm.generationStep 3 0 [airFarm, sugarFarm, waterFarm] rngConst =
      some ([sugarFarm, airFarm, airFarm], ⟨fun _ => 1, fun _ => 0, 2, 4⟩) ∧
    [sugarFarm, airFarm, airFarm].take
        (Farm.survivorsOf 3 [airFarm, sugarFarm, waterFarm]).length =
      Farm.survivorsOf 3 [airFarm, sugarFarm, waterFarm] := by
  have hrun : Farm.generationStep 3 0 [airFarm, sugarFarm, waterFarm] rngConst =
      some ([sugarFarm, airFarm, airFarm], ⟨fun _ => 1, fun _ => 0, 2, 4⟩) := by
    with_unfolding_all rfl
  exact ⟨hrun,
    c1_next_population_retains_survivors 3 0 [airFarm, sugarFarm, waterFarm]
      rngConst [sugarFarm, airFarm, airFarm] ⟨fun _ => 1, fun _ => 0, 2, 4⟩ hrun⟩

set_option maxRecDepth 1000000 in
/-- C2 (code evaluated at the failing input): `kill_sugar` is not
idempotent. Because the rebuilt rows are indexed `[x][y]` while
`get_tile` reads `tiles[y][x]`, one application of `kill_sugar` also
transposes the grid; on `farmC2` (already fixed by cell-wise demotion
but not symmetric) a second application transposes back, so
`repair (repair g) = g ≠ repair g`. -/
theorem c2_kill_sugar_not_idempotent :
    farmC2.kill_sugar.kill_sugar = farmC2 ∧
    farmC2.kill_sugar.kill_sugar ≠ farmC2.kill_sugar := by
  constructor
  · with_unfolding_all rfl
  · with_unfolding_all decide

set_option maxRecDepth 1000000 in
/-- C3 (code evaluated at the failing input): repair is not cell-wise.
Cell `(col 1, row 0)` of `farmC3` holds `Sugar` and has a `Water`
neighbour, so by the claim it must be unchanged by repair; but after
`kill_sugar` that address holds `Air` (the tile was moved to the
transposed address). -/
theorem c3_supported_resource_cell_changed :
    farmC3.get_tile 1 0 = some Tile.Sugar ∧
    farmC3.has_water_in_neighbourhood 1 0 = true ∧
    farmC3.kill_sugar.get_tile 1 0 = some Tile.Air := by
  refine ⟨by with_unfolding_all rfl, by with_unfolding_all rfl,
    by with_unfolding_all rfl⟩

set_option maxRecDepth 1000000 in
/-- C4 (counterexample): crossing a genome with itself does not equal
one repair: `breed`'s own transposition cancels `kill_sugar`'s, so
`cross(a,a)` is the pure cell-wise demotion of `a`, while `repair(a)`
additionally transposes; on the asymmetric `farmC4` they differ. -/
theorem c4_breed_self_ne_repair :
    Farm.breed farmC4 farmC4 ≠ farmC4.kill_sugar := by
  with_unfolding_all decide

/-- C4 (amended): crossover is a pure function of its parents (the model
takes no random state because the source's `rand::thread_rng()` handle in
`breed` is never used), and for every square genome `a`,
`cross(a, a) = repair(repair(a))`. -/
theorem c4_breed_self_eq_double_repair (a : Farm) (h : a.size_x = a.size_y) :
    Farm.breed a a = a.kill_sugar.kill_sugar :=
  Farm.breed_self_eq_double_kill a h

set_option maxRecDepth 1000000 in
/-- Witness for C4's amended theorem at a concrete square genome. -/
theorem c4_breed_self_eq_double_repair_witness :
    farmC4.size_x = farmC4.size_y ∧
    Farm.breed farmC4 farmC4 = farmC4.kill_sugar.kill_sugar :=
  ⟨rfl, c4_breed_self_eq_double_repair farmC4 rfl⟩

/-- C5: the resource-support invariant holds after every
genome-producing operation: after construction (`new_rect`), after
crossover of equal-shaped square parents (`breed`), and after the
mutation-then-repair step of the population loop (`mutate` followed by
`kill_sugar`). -/
theorem c5_invariant_after_operations :
    (∀ sx sy : ℕ, (Farm.new_rect sx sy).Invariant) ∧
    (∀ a b : Farm, a.size_x = a.size_y → b.size_y = a.size_y →
      (Farm.breed a b).Invariant) ∧
    (∀ (g : Farm) (factor : ℚ) (r : Rng) (g' : Farm) (r' : Rng),
      g.size_x = g.size_y → g.mutate factor r = some (g', r') →
      g'.kill_sugar.Invariant) :=
  ⟨Farm.new_rect_invariant,
    fun a b ha hb => Farm.breed_invariant a b ha hb,
    fun g factor r g' r' hsq hm => by
      have hs := Farm.mutate_sizes g factor r g' r' hm
      exact Farm.kill_sugar_invariant g' (by omega)⟩

set_option maxRecDepth 1000000 in
/-- Witness for C5 at concrete inputs: a fresh 2x2 farm, a crossover of
two square farms, and a concrete mutation run followed by repair. -/
theorem c5_invariant_after_operations_witness :
    (Farm.new_rect 2 2).Invariant ∧
    (farmC4.size_x = farmC4.size_y ∧ farmC6a.size_y = farmC4.size_y ∧
      (Farm.breed farmC4 farmC6a).Invariant) ∧
    (Farm.mutate farmC4 0 rngConst =
        some (farmC4, ⟨fun _ => 1, fun _ => 0, 4, 0⟩) ∧
      farmC4.kill_sugar.Invariant) := by
  have hmut : Farm.mutate farmC4 0 rngConst =
      some (farmC4, ⟨fun _ => 1, fun _ => 0, 4, 0⟩) := by
    with_unfolding_all rfl
  exact ⟨c5_invariant_after_operations.1 2 2,
    ⟨rfl, rfl, c5_invariant_after_operations.2.1 farmC4 farmC6a rfl rfl⟩,
    hmut,
    c5_invariant_after_operations.2.2 farmC4 0 rngConst farmC4
      ⟨fun _ => 1, fun _ => 0, 4, 0⟩ rfl hmut⟩

set_option maxRecDepth 1000000 in
/-- C6 (counterexample): crossover does not reject mismatched shapes.
The parents differ in width (2 vs 3), yet `breed` executes without any
panic (`breedSafe`) and silently produces a 2x2 child, truncating the
wider parent's extra tiles (its `Sugar` row is ignored). -/
theorem c6_breed_mismatched_shapes_silently :
    farmC6a.size_x ≠ farmC6b.size_x ∧
    Farm.breedSafe farmC6a farmC6b ∧
    Farm.breed farmC6a farmC6b =
      ⟨[[Tile.Water, Tile.Water], [Tile.Water, Tile.Water]], 2, 2⟩ := by
  refine ⟨by decide, by with_unfolding_all decide, by with_unfolding_all rfl⟩

/-- C6 (amended): crossover performs no shape validation. For a
well-formed square parent `a` and a well-formed parent `b` of the same
height whose width is at least `a`'s, `breed(a, b)` executes without
panicking and silently produces a well-formed child combining `a`'s
width with `b`'s height field (truncating `b`'s extra columns); only
when `a`'s iteration range exceeds `b`'s does the source abort via an
`unwrap` panic. -/
theorem c6_breed_no_shape_check (a b : Farm) (hWFa : a.WF) (hWFb : b.WF)
    (hsa : a.size_x = a.size_y) (hby : b.size_y = a.size_y)
    (hbx : a.size_x ≤ b.size_x) :
    Farm.breedSafe a b ∧ (Farm.breed a b).size_x = a.size_x ∧
      (Farm.breed a b).size_y = b.size_y ∧ (Farm.breed a b).WF :=
  Farm.breed_no_shape_check_core a b hWFa hWFb hsa hby hbx

/-- Witness for C6's amended theorem at the concrete mismatched parents. -/
theorem c6_breed_no_shape_check_witness :
    farmC6a.WF ∧ farmC6b.WF ∧ farmC6a.size_x ≤ farmC6b.size_x ∧
    Farm.breedSafe farmC6a farmC6b ∧
    (Farm.breed farmC6a farmC6b).size_y = farmC6b.size_y := by
  have h := c6_breed_no_shape_check farmC6a farmC6b (by decide) (by decide)
    rfl rfl (by decide)
  exact ⟨by decide, by decide, by decide, h.1, h.2.2.1⟩

/-- C7 (counterexample): the claim fails on non-square genomes. On the
fill-loop-built 2x1 shape, address `(1, 0)` is in range by the size
fields, yet the storage access `get_tile` performs there is out of
range (`¬ getSafe`), so the source panics instead of returning a
present tile; likewise `get_neighbours (0, 0)` performs that same
out-of-range access for its right neighbour (`¬ neighboursSafe`), so it
panics instead of returning four tiles. -/
theorem c7_neighbours_nonsquare_panic :
    1 < rectFarm21.size_x ∧ 0 < rectFarm21.size_y ∧
    ¬ rectFarm21.getSafe 1 0 ∧
    ¬ rectFarm21.neighboursSafe 0 0 := by
  refine ⟨by decide, by decide, by decide, by decide⟩

/-- C7 (amended): on well-formed square genomes — the only shapes whose
construction completes, see C10 — every `get_tile` and neighbourhood
storage access is in range, `get_neighbours` returns exactly four tiles
in the fixed order up, right, down, left with out-of-bounds neighbour
addresses evaluating as `Air` (matching the spec-side description
`neighboursSpec`), and `get_tile` is `some` exactly on in-range
addresses and `none` otherwise. -/
theorem c7_neighbours_boundary (g : Farm) (hWF : g.WF)
    (hsq : g.size_x = g.size_y) (x y : ℕ) :
    g.getSafe x y ∧ g.neighboursSafe x y ∧
    g.get_neighbours x y = g.neighboursSpec x y ∧
    (g.get_neighbours x y).length = 4 ∧
    ((g.get_tile x y).isSome = true ↔ x < g.size_x ∧ y < g.size_y) :=
  ⟨Farm.WF_getSafe g hWF hsq x y,
    ⟨fun _ => Farm.WF_getSafe g hWF hsq _ _, Farm.WF_getSafe g hWF hsq _ _,
      Farm.WF_getSafe g hWF hsq _ _, fun _ => Farm.WF_getSafe g hWF hsq _ _⟩,
    Farm.get_neighbours_eq_spec g x y, rfl, Farm.get_tile_isSome g x y⟩

/-- Witness for C7's amended theorem at a concrete square genome and a
boundary address. -/
theorem c7_neighbours_boundary_witness :
    farmC6a.WF ∧ farmC6a.size_x = farmC6a.size_y ∧
    (farmC6a.getSafe 0 1 ∧ farmC6a.neighboursSafe 0 1 ∧
      farmC6a.get_neighbours 0 1 = farmC6a.neighboursSpec 0 1 ∧
      (farmC6a.get_neighbours 0 1).length = 4 ∧
      ((farmC6a.get_tile 0 1).isSome = true ↔
        0 < farmC6a.size_x ∧ 1 < farmC6a.size_y)) :=
  ⟨by decide, rfl, c7_neighbours_boundary farmC6a (by decide) rfl 0 1⟩

set_option maxRecDepth 1000000 in
/-- C8 (counterexample): the vertical symmetry score is not
`floor (50 * matches / total)`. On the 10x10 `farmC8` with 58 matched
cells out of 100, the floor formula gives 29, but the `f64` evaluation
`58 as f64 / 100 as f64 * 50.0` rounds to just below 29 and the
`as usize` cast truncates the score to 28. -/
theorem c8_vertical_score_ne_floor :
    farmC8.verticalMatches = 58 ∧
    farmC8.size_x * farmC8.size_y = 100 ∧
    farmC8.get_vertical_symmetry_score = 28 ∧
    (50 * farmC8.verticalMatches) / (farmC8.size_x * farmC8.size_y) = 29 := by
  refine ⟨by with_unfolding_all rfl, rfl, by with_unfolding_all rfl,
    by with_unfolding_all rfl⟩

/-- C8 (amended): `resource_score` is exactly 100 times the number of
`Sugar` tiles, and for well-formed genomes both symmetry scores lie in
`[0, 50]`; the exact value is the truncation of the double-rounded `f64`
product, which can fall one below the floor formula. -/
theorem c8_score_bounds (g : Farm) (hWF : g.WF) :
    g.get_sugar_score = 100 * g.sugarCount ∧
    g.get_vertical_symmetry_score ≤ 50 ∧
    g.get_horizontal_symmetry_score ≤ 50 :=
  ⟨Farm.get_sugar_score_eq g, Farm.vertical_score_le g hWF,
    Farm.horizontal_score_le g hWF⟩

set_option maxRecDepth 1000000 in
/-- Witness for C8's amended theorem at the concrete 10x10 genome. -/
theorem c8_score_bounds_witness :
    farmC8.WF ∧
    (farmC8.get_sugar_score = 100 * farmC8.sugarCount ∧
      farmC8.get_vertical_symmetry_score ≤ 50 ∧
      farmC8.get_horizontal_symmetry_score ≤ 50) :=
  ⟨by decide, c8_score_bounds farmC8 (by decide)⟩

/-- C9: the defensive `panic!("invalid tile index")` branch of `mutate`
is unreachable: for every genome, mutation factor and random stream, the
`gen_range(0..3)` draw yields one of exactly the three tiles, so
`mutate` always returns a result. -/
theorem c9_mutation_draw_total (g : Farm) (factor : ℚ) (r : Rng) :
    (g.mutate factor r).isSome = true :=
  Farm.mutate_isSome_aux g factor r

/-- C10: for well-formed square genomes every in-range `get` address
performs an in-range storage access, but because construction builds
`size_x` rows of `size_y` cells while `get_tile` reads `tiles[y][x]`,
the constructed 2x1 shape has the in-range address `(1, 0)` whose
storage access is out of range. -/
theorem c10_get_storage_bounds :
    (∀ g : Farm, g.WF → g.size_x = g.size_y →
      ∀ x y, x < g.size_x → y < g.size_y → g.getInBounds x y) ∧
    (1 < rectFarm21.size_x ∧ 0 < rectFarm21.size_y ∧
      ¬ rectFarm21.getInBounds 1 0) :=
  ⟨fun g hWF hsq x y hx hy => Farm.WF_getInBounds g hWF hsq x y hx hy,
    by decide, by decide, by decide⟩

/-- Witness for C10's universal part at a concrete square genome. -/
theorem c10_get_storage_bounds_witness :
    farmC4.WF ∧ farmC4.size_x = farmC4.size_y ∧ farmC4.getInBounds 1 1 :=
  ⟨by decide, rfl,
    c10_get_storage_bounds.1 farmC4 (by decide) rfl 1 1 (by decide) (by decide)⟩
